import Mathlib

/-!
Verification of the content ingestion / listing / deletion subsystem of the
ecommerce-chatbot repository, as a shallow embedding in Lean 4.

Strings of the TypeScript source are modelled by Lean `String`
(a wrapper around `List Char`); JavaScript objects whose keys may be
absent are modelled by structures with `Option` fields (an absent key,
i.e. `undefined`, is `none`).  External collaborators (the scraper's
HTTP fetch, the embedding client, the text-splitting library and the
UTF-8 `TextDecoder`) are passed in as function parameters, and the
Pinecone vector store is modelled as a list of records keyed by `id`
together with the store operations the code uses (`upsert`,
`deleteOne`, `listPaginated`, `fetch`).
-/

namespace EcomBot

/-! ## String helpers mirroring the JavaScript string operations used -/

/-- The character list of `"_chunk"`, the separator the code uses inside
document chunk record IDs (`src/app/api/documents/route.ts`,
`src/unnamed/part_001`). -/
def uChunkCs : List Char := ['_', 'c', 'h', 'u', 'n', 'k']

/-- JavaScript `s.includes(pat)` / "pat occurs as a substring of s",
on character lists: scans every suffix for `pat` as a prefix. -/
def containsSub (pat : List Char) : List Char → Bool
  | [] => pat.isEmpty
  | a :: rest => pat.isPrefixOf (a :: rest) || containsSub pat rest

/-- JavaScript `s.split(pat)[0]`: the characters of `s` strictly before
the first occurrence of `pat` (all of `s` when `pat` does not occur). -/
def splitHeadCs (pat : List Char) : List Char → List Char
  | [] => []
  | a :: rest => if pat.isPrefixOf (a :: rest) then [] else a :: splitHeadCs pat rest

/-- Scans a character list for an adjacent pair `'_', 'c'` — the only way
the pattern `"_chunk"` can start.  Used to show base IDs are free of the
chunk separator. -/
def hasUC : List Char → Bool
  | [] => false
  | [_] => false
  | a :: b :: rest => (a == '_' && b == 'c') || hasUC (b :: rest)

/-- Decimal digit characters of a natural number, most significant first.
This is the semantics of JavaScript `n.toString()` for the non-negative
integers produced by `Date.now()`. -/
def decDigits (n : Nat) : List Char :=
  if _h : n < 10 then [Nat.digitChar n]
  else decDigits (n / 10) ++ [Nat.digitChar (n % 10)]
  decreasing_by exact Nat.div_lt_self (by omega) (by omega)

/-- JavaScript template interpolation of a non-negative integer
(`Date.now()` and chunk indices) into a string. -/
def natStr (n : Nat) : String := ⟨decDigits n⟩

/-- Unfolding of `String.append` to list append on the underlying data. -/
theorem data_append (a b : String) : (a ++ b).data = a.data ++ b.data := rfl

/-! ### Lemmas about the chunk-separator scan -/

theorem hasUC_eq_cons (a : Char) (l : List Char) :
    hasUC (a :: l) =
      ((match l with | [] => false | b :: _ => a == '_' && b == 'c') || hasUC l) := by
  cases l <;> simp [hasUC]

theorem hasUC_of_tail {a : Char} {l : List Char} (h : hasUC l = true) :
    hasUC (a :: l) = true := by
  rw [hasUC_eq_cons]
  cases l <;> simp_all

theorem hasUC_of_containsSub {r l : List Char}
    (h : containsSub ('_' :: 'c' :: r) l = true) : hasUC l = true := by
  induction l with
  | nil => simp [containsSub, List.isEmpty] at h
  | cons a rest ih =>
    simp only [containsSub, Bool.or_eq_true] at h
    rcases h with h | h
    · cases rest with
      | nil => simp [List.isPrefixOf] at h
      | cons b bs =>
        simp only [List.isPrefixOf, Bool.and_eq_true] at h
        obtain ⟨ha, hb, -⟩ := h
        have ha' : a = '_' := (eq_of_beq ha).symm
        have hb' : b = 'c' := (eq_of_beq hb).symm
        subst ha'
        subst hb'
        simp [hasUC]
    · exact hasUC_of_tail (ih h)

theorem digit_hasUC {l : List Char} (hd : ∀ c ∈ l, c.isDigit = true) :
    hasUC l = false := by
  induction l with
  | nil => rfl
  | cons c rest ih =>
    rw [hasUC_eq_cons]
    have hc : c.isDigit = true := hd c (by simp)
    have hcu : (c == '_') = false := by
      cases hce : (c == '_') with
      | false => rfl
      | true =>
        rw [eq_of_beq hce] at hc
        exact absurd hc (by decide)
    have : hasUC rest = false := ih (fun x hx => hd x (by simp [hx]))
    cases rest <;> simp_all

theorem digit_hasUC_underscore {l : List Char} (hd : ∀ c ∈ l, c.isDigit = true) :
    hasUC ('_' :: l) = false := by
  rw [hasUC_eq_cons]
  have : hasUC l = false := digit_hasUC hd
  cases l with
  | nil => simp [this]
  | cons b bs =>
    have hb : b.isDigit = true := hd b (by simp)
    have hbc : (b == 'c') = false := by
      cases hce : (b == 'c') with
      | false => rfl
      | true =>
        rw [eq_of_beq hce] at hb
        exact absurd hb (by decide)
    simp [this, hbc]

theorem decDigits_isDigit (n : Nat) : ∀ c ∈ decDigits n, c.isDigit = true := by
  induction n using Nat.strong_induction_on with
  | _ n ih =>
    intro c hc
    rw [decDigits] at hc
    split at hc
    · next h =>
      simp only [List.mem_singleton] at hc
      subst hc
      interval_cases n <;> decide
    · next h =>
      simp only [List.mem_append, List.mem_singleton] at hc
      rcases hc with hc | hc
      · exact ih (n / 10) (Nat.div_lt_self (by omega) (by omega)) c hc
      · subst hc
        have : n % 10 < 10 := Nat.mod_lt _ (by omega)
        interval_cases h : (n % 10) <;> simp_all <;> decide

theorem isPrefixOf_self_append (p t : List Char) : p.isPrefixOf (p ++ t) = true := by
  induction p with
  | nil => simp
  | cons a p ih => simp [List.isPrefixOf, ih]

/-- Helper: when the characters before the junction are free of the
`'_','c'` pair, the split-at-first-`"_chunk"` of
`base ++ "_chunk" ++ tail` is exactly `base`. -/
theorem splitHeadCs_cons_self (a : Char) (p t : List Char) :
    splitHeadCs (a :: p) ((a :: p) ++ t) = [] := by
  have h := isPrefixOf_self_append (a :: p) t
  simp only [List.cons_append] at h
  simp only [List.cons_append, splitHeadCs, List.append_eq, h, if_pos]

theorem splitHeadCs_junction {base : List Char} (r t : List Char)
    (hb : hasUC base = false) :
    splitHeadCs ('_' :: 'c' :: r) (base ++ ('_' :: 'c' :: r) ++ t) = base := by
  induction base with
  | nil =>
    simp only [List.nil_append]
    exact splitHeadCs_cons_self '_' ('c' :: r) t
  | cons a bs ih =>
    have htail : hasUC bs = false := by
      rw [hasUC_eq_cons] at hb
      cases bs <;> simp_all
    have hnp : (('_' :: 'c' :: r).isPrefixOf (a :: (bs ++ ('_' :: 'c' :: r) ++ t))) = false := by
      cases bs with
      | nil =>
        simp only [List.nil_append, List.isPrefixOf, List.cons_append]
        by_cases ha : ('_' == a) = true
        · simp [List.isPrefixOf]
        · simp [ha]
      | cons b bbs =>
        simp only [List.cons_append, List.isPrefixOf]
        rw [hasUC_eq_cons] at hb
        simp only [Bool.or_eq_true] at hb
        by_cases ha : ('_' == a) = true
        · have ha' : a = '_' := (eq_of_beq ha).symm
          subst ha'
          by_cases hbc : ('c' == b) = true
          · have hb' : b = 'c' := (eq_of_beq hbc).symm
            subst hb'
            simp at hb
          · simp [hbc]
        · simp [ha]
    simp only [List.cons_append, splitHeadCs, List.append_eq]
    simp only [List.cons_append] at hnp ih
    rw [hnp]
    simp only [if_neg Bool.false_ne_true, List.cons.injEq, true_and]
    exact ih htail

/-! ## Document base IDs (C9)

`src/app/api/documents/route.ts` line 37 generates
`const baseId = ` `doc_${Date.now()}` and line 41 gives every chunk the
ID `${baseId}_chunk${i}`.  `Date.now()` is modelled as an arbitrary
natural number. -/

/-- The `baseId` generated for a document ingestion whose `Date.now()`
returned `n`. -/
def docBaseId (n : Nat) : String := "doc_" ++ natStr n

/-- The physical record ID of chunk `i` under base ID `b`
(the template `${baseId}_chunk${i}`). -/
def chunkRecId (b : String) (i : Nat) : String := b ++ "_chunk" ++ natStr i

theorem docBaseId_data (n : Nat) :
    (docBaseId n).data = 'd' :: 'o' :: 'c' :: '_' :: decDigits n := rfl

theorem hasUC_docBaseId (n : Nat) : hasUC (docBaseId n).data = false := by
  rw [docBaseId_data]
  rw [hasUC_eq_cons, hasUC_eq_cons, hasUC_eq_cons]
  simp [digit_hasUC_underscore (decDigits_isDigit n)]

/-! ## Data model

The metadata object stored with every Pinecone record
(`src/types/admin.ts` interface `VectorMetadata`, extended with the
`content` and `fileType` keys the routes actually write).  JavaScript
objects may lack any of these keys, so every field is an `Option`;
an absent key (`undefined`) is `none`. -/

structure VectorMetadata where
  url : Option String
  description : Option String
  timestamp : Option String
  filename : Option String
  type : Option String
  isUrl : Option Bool
  content : Option String
  fileType : Option String
  deriving Repr, DecidableEq

/-- A metadata object with every key absent; builders below set the
keys a given route writes. -/
def VectorMetadata.empty : VectorMetadata :=
  ⟨none, none, none, none, none, none, none, none⟩

/-- One physical record in the Pinecone index: an ID, an embedding
vector (opaque integers from the external embedding client), and
possibly-absent metadata. -/
structure PineconeRecord where
  id : String
  values : List Int
  metadata : Option VectorMetadata
  deriving Repr, DecidableEq

/-- The `{ id, metadata }` projection returned by `GET /api/urls`
(interface `Vector` of `src/types/admin.ts`). -/
structure Vector where
  id : String
  metadata : Option VectorMetadata
  deriving Repr, DecidableEq

/-- A logical content item as synthesized by `fetchContent`
(`src/unnamed/part_001`) / `fetchUrls` (`src/unnamed/part_006`).
The code builds plain objects `{ id, type, description, filename,
createdAt }` (documents) and `{ id, type, url, description, createdAt }`
(URLs); all other keys — in particular `chunkCount` — are absent,
hence `none`.  `createdAt` keeps the metadata timestamp string
(`new Date(timestamp)` applied to it is an external Date parse). -/
structure SavedItem where
  id : String
  type : String
  url : Option String
  description : Option String
  filename : Option String
  createdAt : Option String
  chunkCount : Option Nat
  deriving Repr, DecidableEq

/-! ## Vector store model

The Pinecone index is a key-value store over record IDs; modelled as a
list of records in insertion order with at most one record per ID. -/

/-- Pinecone `upsert` of a single record: replaces the record with the
same ID when present, appends otherwise. -/
def upsertRecord (store : List PineconeRecord) (r : PineconeRecord) : List PineconeRecord :=
  if store.any (fun s => s.id == r.id) then
    store.map (fun s => if s.id == r.id then r else s)
  else store ++ [r]

/-- Pinecone `upsert` of a batch of records, applied left to right. -/
def upsertMany (store : List PineconeRecord) (rs : List PineconeRecord) : List PineconeRecord :=
  rs.foldl upsertRecord store

/-- Pinecone `deleteOne id`: removes the record with exactly that ID;
deleting an absent ID is a no-op. -/
def deleteOneRec (store : List PineconeRecord) (id : String) : List PineconeRecord :=
  store.filter (fun r => ¬ (r.id == id))

/-- One page of Pinecone `listPaginated { limit, paginationToken }`:
the IDs of records `tok, …, tok+limit-1`, plus the next token when more
records remain. -/
def listPage (store : List PineconeRecord) (limit tok : Nat) :
    List String × Option Nat :=
  (((store.drop tok).take limit).map (fun r => r.id),
   if tok + limit < store.length then some (tok + limit) else none)

/-- The `do … while (paginationToken)` loop of `GET /api/urls`
(`src/app/api/urls/route.ts` lines 117–127): accumulates the IDs of
every page, 100 at a time. -/
def collectIdsFrom (store : List PineconeRecord) (tok : Nat) : List String :=
  let p := listPage store 100 tok
  match hm : p.2 with
  | none => p.1
  | some t2 => p.1 ++ collectIdsFrom store t2
  termination_by store.length - tok
  decreasing_by
    simp only [listPage, p] at hm
    split at hm
    · cases hm
      omega
    · cases hm

/-- Pinecone `fetch [id]` for each listed ID, flattened
(`GET` step 2, lines 130–137): each fetch returns the record with that
ID when it exists. -/
def fetchIds (store : List PineconeRecord) (ids : List String) : List PineconeRecord :=
  ids.foldr (fun i acc => ((store.find? (fun r => r.id == i)).toList) ++ acc) []

/-- The full `GET /api/urls` body (current version,
`src/app/api/urls/route.ts` lines 109–150): paginate all IDs, fetch
each, drop records without metadata, and project to `{ id, metadata }`. -/
def getVectors (store : List PineconeRecord) : List Vector :=
  (((fetchIds store (collectIdsFrom store 0)).filter
      (fun r => r.metadata.isSome)).map (fun r => ⟨r.id, r.metadata⟩))

/-! ## Grouping fetched records into logical items

`fetchContent` in `src/unnamed/part_001` (identical logic in
`fetchUrls`, `src/unnamed/part_006` lines 477–505): iterate over the
fetched vectors, keep a JavaScript `Map`, and finally return
`Array.from(map.values())`.  The `Map` is modelled as an association
list in insertion order: `set` on a present key updates the value in
place, `set` on an absent key appends. -/

/-- JavaScript `.toLowerCase()` (ASCII case folding, character by
character). -/
def strToLower (s : String) : String := ⟨s.data.map Char.toLower⟩

/-- The guard `item.metadata?.type?.toLowerCase() === 'document'`
restricted to a present metadata object. -/
def mIsDoc (m : VectorMetadata) : Bool :=
  match m.type with
  | some t => strToLower t == "document"
  | none => false

/-- The guard `item.metadata?.isUrl` (truthiness of an optional
boolean: `undefined` and `false` are falsy). -/
def mIsUrl (m : VectorMetadata) : Bool := m.isUrl.getD false

/-- `item.id.split('_chunk')[0]`: the part of a record ID before the
first `"_chunk"`. -/
def docKey (id : String) : String := ⟨splitHeadCs uChunkCs id.data⟩

/-- JavaScript `Map.prototype.set`: update in place when the key is
present (keeping its position), append otherwise. -/
def mapSet (acc : List (String × SavedItem)) (k : String) (v : SavedItem) :
    List (String × SavedItem) :=
  if acc.any (fun p => p.1 == k) then
    acc.map (fun p => if p.1 == k then (k, v) else p)
  else acc ++ [(k, v)]

/-- One iteration of the `data.vectors.forEach` loop of `fetchContent`:
document-typed records are grouped under their ID's `"_chunk"`-free
head (first chunk wins), `isUrl` records become URL items, everything
else is skipped. -/
def classifyStep (acc : List (String × SavedItem)) (v : Vector) :
    List (String × SavedItem) :=
  match v.metadata with
  | none => acc
  | some m =>
    if mIsDoc m then
      let k := docKey v.id
      if acc.any (fun p => p.1 == k) then acc
      else acc ++ [(k, ⟨k, "document", none, m.description, m.filename, m.timestamp, none⟩)]
    else if mIsUrl m then
      mapSet acc v.id ⟨v.id, "url", m.url, m.description, none, m.timestamp, none⟩
    else acc

/-- `fetchContent`'s grouping pass over an already-fetched vector list,
returning `Array.from(documents.values())`. -/
def groupItems (vs : List Vector) : List SavedItem :=
  (vs.foldl classifyStep []).map (fun p => p.2)

/-- The full listing pipeline: `GET /api/urls` then `fetchContent`'s
grouping. -/
def listItems (store : List PineconeRecord) : List SavedItem :=
  groupItems (getVectors store)

/-! ## Route handlers for `/api/urls`

Current version of `src/app/api/urls/route.ts` (lines 107–224).  The
module-level `let urls = []` array is the `ModuleState`; the scraper
and embedding client appear as oracles, `Date.now()` as `now : Nat`
and `new Date().toISOString()` as `nowIso`.  External calls actually
issued are reported in a trace list. -/

/-- An entry of the module-level in-memory `urls` array, which is also
the JSON body of a successful `POST /api/urls`. -/
structure UrlEntry where
  id : String
  url : String
  description : String
  createdAt : String
  deriving Repr, DecidableEq

/-- The module-level mutable state of `src/app/api/urls/route.ts`. -/
structure ModuleState where
  urls : List UrlEntry
  deriving Repr, DecidableEq

/-- Calls made to external collaborators, in order. -/
inductive ExtCall where
  | scrapeC (url : String)
  | embedC (text : String)
  | upsertC (rs : List PineconeRecord)
  | deleteC (id : String)
  | splitC (text : String)
  deriving Repr, DecidableEq

inductive UrlsPostResp where
  | ok (item : UrlEntry)
  | badRequest (err : String)
  | serverError (err : String)
  deriving Repr, DecidableEq

inductive UrlsGetResp where
  | ok (vectors : List Vector)
  | serverError (err : String)
  deriving Repr, DecidableEq

inductive UrlsDeleteResp where
  | ok
  | serverError (err : String)
  deriving Repr, DecidableEq

/-- `GET /api/urls` (lines 109–150).  The handler closes over the
module state but never reads it; the response is built from the store
alone. -/
def getHandler (_st : ModuleState) (store : List PineconeRecord) : UrlsGetResp :=
  .ok (getVectors store)

/-- `POST /api/urls` (lines 152–204): validate, scrape, embed, upsert
one record with `isUrl: true` metadata, push onto the in-memory array,
and respond with the new entry.  A scrape or embed failure is caught
and becomes a 500. -/
def postUrls (scrape : String → Except Unit String)
    (embed : String → Except Unit (List Int)) (now : Nat) (nowIso : String)
    (st : ModuleState) (store : List PineconeRecord) (url description : String) :
    UrlsPostResp × ModuleState × List PineconeRecord × List ExtCall :=
  if url = "" ∨ description = "" then
    (.badRequest "URL and description are required", st, store, [])
  else
    match scrape url with
    | .error _ => (.serverError "Failed to add URL", st, store, [.scrapeC url])
    | .ok content =>
      match embed content with
      | .error _ =>
        (.serverError "Failed to add URL", st, store, [.scrapeC url, .embedC content])
      | .ok vec =>
        let id := natStr now
        let rec1 : PineconeRecord :=
          ⟨id, vec,
           some { VectorMetadata.empty with
                    url := some url, description := some description,
                    content := some content, timestamp := some nowIso,
                    isUrl := some true }⟩
        let item : UrlEntry := ⟨id, url, description, nowIso⟩
        (.ok item, ⟨st.urls ++ [item]⟩, upsertMany store [rec1],
         [.scrapeC url, .embedC content, .upsertC [rec1]])

/-- `DELETE /api/urls` (lines 206–224): `index.deleteOne(id)` on the
exact ID, filter the in-memory array, respond `{ success: true }`. -/
def deleteHandler (st : ModuleState) (store : List PineconeRecord) (id : String) :
    UrlsDeleteResp × ModuleState × List PineconeRecord × List ExtCall :=
  (.ok, ⟨st.urls.filter (fun u => ¬ (u.id == id))⟩, deleteOneRec store id, [.deleteC id])

/-! ## Document processing and `POST /api/documents`

`src/utils/document-processor.ts` and `src/app/api/documents/route.ts`
(current versions).  The UTF-8 `TextDecoder` and the text-splitting
library are external, passed as `decode` and `splitter`. -/

/-- `MAX_FILE_SIZE` of `src/utils/document-processor.ts` line 30. -/
def MAX_FILE_SIZE : Nat := 10 * 1024 * 1024

/-- `SUPPORTED_TYPES` of `src/utils/document-processor.ts`: only
`text/plain`. -/
def SUPPORTED_TYPES : List String := ["text/plain"]

/-- `CHUNK_SIZE` of `src/utils/document-processor.ts` line 31. -/
def CHUNK_SIZE : Nat := 500

/-- `CHUNK_OVERLAP` of `src/utils/document-processor.ts` line 32. -/
def CHUNK_OVERLAP : Nat := 50

/-- An uploaded `File`: declared name, declared MIME type, reported
byte size, and raw byte content. -/
structure FileData where
  name : String
  type : String
  size : Nat
  bytes : List Nat
  deriving Repr, DecidableEq

/-- One chunk object produced by `processDocument`: the chunk text plus
the per-chunk metadata `{ filename, fileType, timestamp }`. -/
structure DocChunk where
  content : String
  filename : String
  fileType : String
  timestamp : String
  deriving Repr, DecidableEq

/-- `processDocument` (`src/utils/document-processor.ts` lines 53–81):
re-validates type and size, decodes the buffer, splits the text, and
pairs every chunk with the file metadata. -/
def processDocument (decode : List Nat → String) (splitter : String → List String)
    (nowIso : String) (f : FileData) : Except String (List DocChunk) :=
  if ¬ SUPPORTED_TYPES.contains f.type then .error "Unsupported file type"
  else if f.size > MAX_FILE_SIZE then .error "File too large (max 10MB)"
  else .ok ((splitter (decode f.bytes)).map (fun c => ⟨c, f.name, f.type, nowIso⟩))

inductive DocsPostResp where
  | ok (id filename description : String) (chunks : Nat)
  | badRequest (err : String)
  | serverError (err : String)
  deriving Repr, DecidableEq

/-- The chunk records built by the `chunks.map((chunk, i) => …)` loop
of `POST /api/documents` (lines 38–50): record `i` gets ID
`${baseId}_chunk${i}` and metadata
`{ ...chunk.metadata, description, type: 'document', content }`. -/
def mkChunkRecords (b desc : String) (embedV : String → List Int) :
    List DocChunk → Nat → List PineconeRecord
  | [], _ => []
  | c :: rest, i =>
    ⟨chunkRecId b i, embedV c.content,
     some { VectorMetadata.empty with
              filename := some c.filename, fileType := some c.fileType,
              timestamp := some c.timestamp, description := some desc,
              type := some "document", content := some c.content }⟩
      :: mkChunkRecords b desc embedV rest (i + 1)

/-- `POST /api/documents` (`src/app/api/documents/route.ts` lines
14–68): guard on file presence, declared type, and size; process into
chunks; embed and upsert every chunk concurrently (`Promise.all` —
modelled as: all succeed, or any embed failure is caught as a 500);
respond with the base ID and the chunk count. -/
def postDocuments (decode : List Nat → String) (splitter : String → List String)
    (embed : String → Except Unit (List Int)) (now : Nat) (nowIso : String)
    (store : List PineconeRecord) (file : Option FileData) (description : String) :
    DocsPostResp × List PineconeRecord × List ExtCall :=
  match file with
  | none => (.badRequest "No file provided", store, [])
  | some f =>
    if ¬ SUPPORTED_TYPES.contains f.type then
      (.badRequest "Unsupported file type", store, [])
    else if f.size > MAX_FILE_SIZE then
      (.badRequest "File too large (max 10MB)", store, [])
    else
      match processDocument decode splitter nowIso f with
      | .error _ => (.serverError "Failed to process document", store, [])
      | .ok chunks =>
        let b := docBaseId now
        let calls :=
          ExtCall.splitC (decode f.bytes) :: chunks.map (fun c => ExtCall.embedC c.content)
        if chunks.all (fun c => (embed c.content).isOk) then
          let recs := mkChunkRecords b description
            (fun s => ((embed s).toOption.getD [])) chunks 0
          (.ok b f.name description chunks.length, upsertMany store recs,
           calls ++ recs.map (fun r => ExtCall.upsertC [r]))
        else
          (.serverError "Failed to process document", store, calls)

/-! ## The scraper `scrapeUrl` (`src/utils/scraper.ts` lines 62–90)

The HTTP fetch and cheerio's `$('body').text()` extraction are
external; a fetch outcome is either a network-level failure (a rejected
promise) or a response carrying an HTTP status code and the body text
cheerio would extract.  The code applies
`.replace(/\s+/g, ' ').trim()` to that text and never inspects the
status code. -/

inductive FetchResult where
  | failure
  | success (status : Nat) (bodyText : String)
  deriving Repr, DecidableEq

/-- Whitespace characters in the sense of the regex `\s` (common
ASCII subset). -/
def isWsChar (c : Char) : Bool :=
  c == ' ' || c == '\t' || c == '\n' || c == '\r' || c == '\x0b' || c == '\x0c'

theorem dropWhile_length_le (p : Char → Bool) (l : List Char) :
    (l.dropWhile p).length ≤ l.length := by
  induction l with
  | nil => simp
  | cons a rest ih =>
    rw [List.dropWhile]
    cases p a <;> simp <;> omega

/-- `.replace(/\s+/g, ' ')`: every maximal whitespace run becomes a
single space. -/
def collapseWs : List Char → List Char
  | [] => []
  | c :: rest =>
    if isWsChar c then ' ' :: collapseWs (rest.dropWhile isWsChar)
    else c :: collapseWs rest
  termination_by l => l.length
  decreasing_by
    · have := dropWhile_length_le isWsChar rest
      simp only [List.length_cons]
      omega
    · simp [Nat.lt_succ_self]

/-- JavaScript `.trim()`: strip whitespace from both ends. -/
def trimWs (l : List Char) : List Char :=
  ((l.dropWhile isWsChar).reverse.dropWhile isWsChar).reverse

/-- `scrapeUrl`: a rejected fetch (or any thrown error) is caught and
re-thrown as `'Failed to scrape URL'`; otherwise the extracted body
text is whitespace-collapsed, trimmed, and returned — the HTTP status
is never examined. -/
def scrapeUrl (r : FetchResult) : Except String String :=
  match r with
  | .failure => .error "Failed to scrape URL"
  | .success _ body => .ok ⟨trimWs (collapseWs body.data)⟩

/-! ## The chunk splitter (spec-modelled) -/

/-- Modelled from the spec: the chunk splitter implementation is the
text-splitting library's `RecursiveCharacterTextSplitter`, which is
not under `src/` — only its call site
(`src/utils/document-processor.ts` lines 65–70) is.  Following §4.1 of
the spec: fixed-size segments of `chunkSize` characters in which each
chunk after the first begins with the last `overlap` characters of its
predecessor; text no longer than `chunkSize` yields exactly one chunk
with no overlap applied.  The degenerate configuration
`overlap ≥ chunkSize` (excluded by the contract) also yields a single
chunk. -/
def splitChunks (cs ov : Nat) (t : List Char) : List (List Char) :=
  if h : t.length ≤ cs ∨ cs - ov = 0 then [t]
  else t.take cs :: splitChunks cs ov (t.drop (cs - ov))
  termination_by t.length
  decreasing_by
    push_neg at h
    simp only [List.length_drop]
    omega

/-- Removes each chunk's leading overlap region: the first chunk is
kept whole, every later chunk loses its first `overlap` characters. -/
def dropOverlaps (ov : Nat) : List (List Char) → List (List Char)
  | [] => []
  | c :: rest => c :: rest.map (fun d => d.drop ov)

/-! ## Lemmas: the pagination loop collects every ID in store order -/

theorem collectIdsFrom_eq (store : List PineconeRecord) (tok : Nat) :
    collectIdsFrom store tok = (store.drop tok).map (fun r => r.id) := by
  have main : ∀ k tok, store.length - tok = k →
      collectIdsFrom store tok = (store.drop tok).map (fun r => r.id) := by
    intro k
    induction k using Nat.strong_induction_on with
    | _ k ih =>
      intro tok hk
      rw [collectIdsFrom]
      simp only [listPage]
      split
      · next hm =>
        have hge : ¬ (tok + 100 < store.length) := by
          by_contra hc
          simp [hc] at hm
        congr 1
        exact List.take_of_length_le (by simp; omega)
      · next t2 hm =>
        have hpair : tok + 100 < store.length ∧ t2 = tok + 100 := by
          by_cases hc : tok + 100 < store.length
          · simp [hc] at hm
            exact ⟨hc, hm.symm⟩
          · simp [hc] at hm
        obtain ⟨hlt, ht2⟩ := hpair
        subst ht2
        have ih2 := ih (store.length - (tok + 100)) (by omega) (tok + 100) rfl
        rw [ih2]
        rw [← List.map_append]
        congr 1
        rw [← List.drop_drop 100 tok store]
        exact List.take_append_drop 100 (store.drop tok)
  exact main (store.length - tok) tok rfl

theorem fetchIds_nil (store : List PineconeRecord) : fetchIds store [] = [] := rfl

theorem fetchIds_cons (store : List PineconeRecord) (i : String) (ids : List String) :
    fetchIds store (i :: ids) =
      (store.find? (fun r => r.id == i)).toList ++ fetchIds store ids := rfl

/-- A record whose ID matches none of the requested IDs is invisible to
the fetch loop. -/
theorem fetchIds_irrel (r : PineconeRecord) (rest : List PineconeRecord)
    (ids : List String) (h : ∀ i ∈ ids, (r.id == i) = false) :
    fetchIds (r :: rest) ids = fetchIds rest ids := by
  induction ids with
  | nil => rfl
  | cons i is ih =>
    rw [fetchIds_cons, fetchIds_cons]
    rw [List.find?_cons_of_neg _ (by simp [h i (by simp)])]
    rw [ih (fun j hj => h j (by simp [hj]))]

/-- Fetching every listed ID of a duplicate-free store returns the
store itself, in order. -/
theorem fetchIds_all (store : List PineconeRecord)
    (h : (store.map (fun r => r.id)).Nodup) :
    fetchIds store (store.map (fun r => r.id)) = store := by
  induction store with
  | nil => rfl
  | cons r rest ih =>
    simp only [List.map_cons, List.nodup_cons] at h
    obtain ⟨hr, hrest⟩ := h
    rw [List.map_cons, fetchIds_cons]
    rw [List.find?_cons_of_pos _ (by simp)]
    have hne : ∀ i ∈ rest.map (fun r => r.id), (r.id == i) = false := by
      intro i hi
      simp only [beq_eq_false_iff_ne, ne_eq]
      intro hcontra
      exact hr (hcontra ▸ hi)
    rw [fetchIds_irrel r rest _ hne, ih hrest]
    rfl

/-- The whole `GET /api/urls` body on a duplicate-free store: all
records with metadata, projected to `{ id, metadata }`, in store
order. -/
theorem getVectors_eq (store : List PineconeRecord)
    (h : (store.map (fun r => r.id)).Nodup) :
    getVectors store =
      (store.filter (fun r => r.metadata.isSome)).map (fun r => ⟨r.id, r.metadata⟩) := by
  rw [getVectors, collectIdsFrom_eq]
  rw [List.drop_zero, fetchIds_all store h]

/-! ## Lemmas about the grouping pass -/

/-- The keys of the accumulated `Map`. -/
def keysOf (acc : List (String × SavedItem)) : List String := acc.map (fun p => p.1)

theorem classifyStep_none (acc : List (String × SavedItem)) (v : Vector)
    (hm : v.metadata = none) : classifyStep acc v = acc := by
  simp only [classifyStep, hm]

theorem classifyStep_some (acc : List (String × SavedItem)) (v : Vector)
    (m : VectorMetadata) (hm : v.metadata = some m) :
    classifyStep acc v =
      (if mIsDoc m then
        (if acc.any (fun p => p.1 == docKey v.id) then acc
         else acc ++ [(docKey v.id,
           ⟨docKey v.id, "document", none, m.description, m.filename, m.timestamp, none⟩)])
       else if mIsUrl m then
         mapSet acc v.id ⟨v.id, "url", m.url, m.description, none, m.timestamp, none⟩
       else acc) := by
  simp only [classifyStep, hm]

theorem keysOf_mapSet (acc : List (String × SavedItem)) (k : String) (v : SavedItem) :
    k ∈ keysOf (mapSet acc k v) ∧ ∀ k0 ∈ keysOf acc, k0 ∈ keysOf (mapSet acc k v) := by
  rw [mapSet]
  by_cases h : acc.any (fun p => p.1 == k) = true
  · rw [if_pos h]
    have hkeys : keysOf (acc.map (fun p => if p.1 == k then (k, v) else p)) = keysOf acc := by
      rw [keysOf, keysOf, List.map_map]
      apply List.map_congr_left
      intro p _
      by_cases hp : (p.1 == k) = true
      · simp [hp, eq_of_beq hp]
      · have hne : p.1 ≠ k := by simpa using hp
        simp [hne]
    rw [hkeys]
    constructor
    · simp only [List.any_eq_true] at h
      obtain ⟨p, hp, hpk⟩ := h
      rw [keysOf]
      exact List.mem_map.mpr ⟨p, hp, eq_of_beq hpk⟩
    · intro k0 hk0
      exact hk0
  · rw [if_neg h]
    rw [keysOf, List.map_append]
    constructor
    · simp
    · intro k0 hk0
      simp [keysOf] at hk0 ⊢
      tauto

/-- One classification step never removes a key. -/
theorem classifyStep_keys_mono (acc : List (String × SavedItem)) (v : Vector)
    (k : String) (h : k ∈ keysOf acc) : k ∈ keysOf (classifyStep acc v) := by
  cases hv : v.metadata with
  | none => rw [classifyStep_none acc v hv]; exact h
  | some m =>
    rw [classifyStep_some acc v m hv]
    by_cases hd : mIsDoc m = true
    · rw [if_pos hd]
      by_cases hmem : acc.any (fun p => p.1 == docKey v.id) = true
      · rw [if_pos hmem]; exact h
      · rw [if_neg hmem]
        simp only [keysOf, List.map_append]
        exact List.mem_append.mpr (Or.inl h)
    · rw [if_neg hd]
      by_cases hu : mIsUrl m = true
      · rw [if_pos hu]
        exact (keysOf_mapSet acc v.id _).2 k h
      · rw [if_neg hu]; exact h

/-- Records matching neither guard are skipped: the accumulator is
returned unchanged. -/
theorem classifyStep_skip (acc : List (String × SavedItem)) (v : Vector)
    (h : v.metadata = none ∨
         ∃ m, v.metadata = some m ∧ mIsDoc m = false ∧ mIsUrl m = false) :
    classifyStep acc v = acc := by
  rcases h with h | ⟨m, hm, hd, hu⟩
  · exact classifyStep_none acc v h
  · rw [classifyStep_some acc v m hm]
    simp [hd, hu]

/-- A document-classified vector forces its group key into the map. -/
theorem classifyStep_doc_key (acc : List (String × SavedItem)) (v : Vector)
    (m : VectorMetadata) (hm : v.metadata = some m) (hd : mIsDoc m = true) :
    docKey v.id ∈ keysOf (classifyStep acc v) := by
  rw [classifyStep_some acc v m hm, if_pos hd]
  by_cases hmem : acc.any (fun p => p.1 == docKey v.id) = true
  · rw [if_pos hmem]
    simp only [List.any_eq_true] at hmem
    obtain ⟨p, hp, hpk⟩ := hmem
    rw [keysOf]
    exact List.mem_map.mpr ⟨p, hp, eq_of_beq hpk⟩
  · rw [if_neg hmem]
    simp [keysOf]

/-- A URL-classified vector forces its own ID into the map. -/
theorem classifyStep_url_key (acc : List (String × SavedItem)) (v : Vector)
    (m : VectorMetadata) (hm : v.metadata = some m) (hd : mIsDoc m = false)
    (hu : mIsUrl m = true) :
    v.id ∈ keysOf (classifyStep acc v) := by
  rw [classifyStep_some acc v m hm, if_neg (by simp [hd]), if_pos hu]
  exact (keysOf_mapSet acc v.id _).1

theorem foldl_keys_mono (vs : List Vector) (acc : List (String × SavedItem))
    (k : String) (h : k ∈ keysOf acc) :
    k ∈ keysOf (vs.foldl classifyStep acc) := by
  induction vs generalizing acc with
  | nil => exact h
  | cons v rest ih => exact ih _ (classifyStep_keys_mono acc v k h)

/-- Every pair the grouping pass stores has a value whose `id` equals
its key. -/
theorem classifyStep_id_inv (acc : List (String × SavedItem)) (v : Vector)
    (h : ∀ p ∈ acc, p.2.id = p.1) : ∀ p ∈ classifyStep acc v, p.2.id = p.1 := by
  cases hv : v.metadata with
  | none => rw [classifyStep_none acc v hv]; exact h
  | some m =>
    rw [classifyStep_some acc v m hv]
    by_cases hd : mIsDoc m = true
    · rw [if_pos hd]
      by_cases hmem : acc.any (fun p => p.1 == docKey v.id) = true
      · rw [if_pos hmem]; exact h
      · rw [if_neg hmem]
        intro p hp
        rcases List.mem_append.mp hp with hp | hp
        · exact h p hp
        · simp only [List.mem_singleton] at hp
          rw [hp]
    · rw [if_neg hd]
      by_cases hu : mIsUrl m = true
      · rw [if_pos hu, mapSet]
        by_cases hmem : acc.any (fun p => p.1 == v.id) = true
        · rw [if_pos hmem]
          intro p hp
          obtain ⟨q, hq, hfq⟩ := List.mem_map.mp hp
          by_cases hqk : (q.1 == v.id) = true
          · rw [if_pos hqk] at hfq
            rw [← hfq]
          · rw [if_neg hqk] at hfq
            rw [← hfq]
            exact h q hq
        · rw [if_neg hmem]
          intro p hp
          rcases List.mem_append.mp hp with hp | hp
          · exact h p hp
          · simp only [List.mem_singleton] at hp
            rw [hp]
      · rw [if_neg hu]; exact h

theorem foldl_id_inv (vs : List Vector) (acc : List (String × SavedItem))
    (h : ∀ p ∈ acc, p.2.id = p.1) :
    ∀ p ∈ vs.foldl classifyStep acc, p.2.id = p.1 := by
  induction vs generalizing acc with
  | nil => exact h
  | cons v rest ih => exact ih _ (classifyStep_id_inv acc v h)

/-- A key present in the final map yields an item with that ID in the
listing result. -/
theorem item_of_key (vs : List Vector) (k : String)
    (h : k ∈ keysOf (vs.foldl classifyStep [])) :
    ∃ it ∈ groupItems vs, it.id = k := by
  rw [keysOf] at h
  obtain ⟨p, hp, hpk⟩ := List.mem_map.mp h
  refine ⟨p.2, ?_, ?_⟩
  · rw [groupItems]
    exact List.mem_map.mpr ⟨p, hp, rfl⟩
  · rw [foldl_id_inv vs [] (by simp) p hp, hpk]

/-- Membership propagation: a classified vector's key survives to the
end of the fold. -/
theorem key_of_mem_fold (vs : List Vector) (v : Vector) (acc : List (String × SavedItem))
    (hv : v ∈ vs) (m : VectorMetadata) (hm : v.metadata = some m) :
    (mIsDoc m = true → docKey v.id ∈ keysOf (vs.foldl classifyStep acc)) ∧
    (mIsDoc m = false → mIsUrl m = true → v.id ∈ keysOf (vs.foldl classifyStep acc)) := by
  induction vs generalizing acc with
  | nil => cases hv
  | cons w rest ih =>
    rcases List.mem_cons.mp hv with hv | hv
    · subst hv
      constructor
      · intro hd
        exact foldl_keys_mono rest _ _ (classifyStep_doc_key acc v m hm hd)
      · intro hd hu
        exact foldl_keys_mono rest _ _ (classifyStep_url_key acc v m hm hd hu)
    · exact ih _ hv

/-! ## Lemmas about the spec-modelled chunk splitter -/

theorem splitChunks_map_drop (cs ov : Nat) (hov : ov ≤ cs) (t : List Char) :
    ((splitChunks cs ov t).map (fun d => d.drop ov)).flatten = t.drop ov := by
  have main : ∀ len t2, List.length t2 = len →
      ((splitChunks cs ov t2).map (fun d => d.drop ov)).flatten = t2.drop ov := by
    intro len
    induction len using Nat.strong_induction_on with
    | _ len ih =>
      intro t2 hlen
      rw [splitChunks]
      split
      · simp
      · next h =>
        push_neg at h
        obtain ⟨hgt, hstep⟩ := h
        simp only [List.map_cons, List.flatten_cons]
        rw [ih (t2.drop (cs - ov)).length (by simp; omega) _ rfl]
        rw [List.drop_take cs ov t2]
        rw [List.drop_drop ov (cs - ov) t2]
        rw [show cs - ov + ov = cs from by omega]
        rw [show cs = ov + (cs - ov) from by omega, ← List.drop_drop (cs - ov) ov t2]
        rw [show ov + (cs - ov) - ov = cs - ov from by omega]
        exact List.take_append_drop (cs - ov) (t2.drop ov)
  exact main t.length t rfl

/-- Concatenating the chunks with each one's leading overlap removed
reconstructs the input exactly. -/
theorem splitChunks_coverage (cs ov : Nat) (hov : ov ≤ cs) (t : List Char) :
    (dropOverlaps ov (splitChunks cs ov t)).flatten = t := by
  rw [splitChunks]
  split
  · simp [dropOverlaps]
  · next h =>
    push_neg at h
    obtain ⟨hgt, hstep⟩ := h
    rw [dropOverlaps]
    simp only [List.flatten_cons]
    rw [splitChunks_map_drop cs ov hov]
    rw [List.drop_drop ov (cs - ov) t]
    rw [show cs - ov + ov = cs from by omega]
    exact List.take_append_drop cs t


/-! ## Claim theorems -/

/-- C9: for every document ingestion, the generated `baseId`
(`doc_${Date.now()}`) contains no occurrence of the substring
`"_chunk"`, so splitting any chunk ID (`${baseId}_chunk${i}`) at the
first `"_chunk"` recovers exactly the `baseId`. -/
theorem c9_baseId_has_no_chunk_marker (n i : Nat) :
    containsSub uChunkCs (docBaseId n).data = false ∧
    docKey (chunkRecId (docBaseId n) i) = docBaseId n := by
  constructor
  · cases hcs : containsSub uChunkCs (docBaseId n).data with
    | false => rfl
    | true =>
      have hcs2 : containsSub ('_' :: 'c' :: ['h', 'u', 'n', 'k']) (docBaseId n).data = true := hcs
      have := hasUC_of_containsSub hcs2
      rw [hasUC_docBaseId n] at this
      cases this
  · apply String.ext
    show splitHeadCs uChunkCs (chunkRecId (docBaseId n) i).data = (docBaseId n).data
    have hdata : (chunkRecId (docBaseId n) i).data =
        ((docBaseId n).data ++ ('_' :: 'c' :: ['h', 'u', 'n', 'k'])) ++ decDigits i := rfl
    rw [hdata]
    exact splitHeadCs_junction ['h', 'u', 'n', 'k'] (decDigits i) (hasUC_docBaseId n)

/-- C7 (spec-modelled splitter): concatenating all chunks produced for
the configuration used by `processDocument`
(`chunkSize = CHUNK_SIZE = 500`, `overlap = CHUNK_OVERLAP = 50`), with
each chunk's leading overlap region removed, reconstructs the input
text exactly; and text no longer than `CHUNK_SIZE` yields exactly one
chunk with no overlap applied. -/
theorem c7_chunk_coverage (t : List Char) :
    (dropOverlaps CHUNK_OVERLAP (splitChunks CHUNK_SIZE CHUNK_OVERLAP t)).flatten = t ∧
    (t.length ≤ CHUNK_SIZE → splitChunks CHUNK_SIZE CHUNK_OVERLAP t = [t]) := by
  constructor
  · exact splitChunks_coverage CHUNK_SIZE CHUNK_OVERLAP (by decide) t
  · intro h
    rw [splitChunks, dif_pos (Or.inl h)]

/-- Witness for C7 at the concrete input `"abc"`. -/
theorem c7_witness :
    (['a', 'b', 'c'].length ≤ CHUNK_SIZE) ∧
    (dropOverlaps CHUNK_OVERLAP
      (splitChunks CHUNK_SIZE CHUNK_OVERLAP ['a', 'b', 'c'])).flatten = ['a', 'b', 'c'] ∧
    splitChunks CHUNK_SIZE CHUNK_OVERLAP ['a', 'b', 'c'] = [['a', 'b', 'c']] :=
  ⟨by decide, (c7_chunk_coverage ['a', 'b', 'c']).1,
   (c7_chunk_coverage ['a', 'b', 'c']).2 (by decide)⟩

/-- C6 counterexample: a non-2xx HTTP response does NOT produce a
`ScrapeError` — `scrapeUrl` never inspects the status, so a 404 page
with body text `"Not Found"` yields `ok "Not Found"`. -/
theorem c6_counterexample :
    scrapeUrl (FetchResult.success 404 "Not Found") = Except.ok "Not Found" := by
  show Except.ok ⟨trimWs (collapseWs "Not Found".data)⟩ = Except.ok "Not Found"
  have h : collapseWs "Not Found".data = "Not Found".data := by
    show collapseWs ['N', 'o', 't', ' ', 'F', 'o', 'u', 'n', 'd'] =
      ['N', 'o', 't', ' ', 'F', 'o', 'u', 'n', 'd']
    simp [collapseWs, isWsChar, List.dropWhile]
  rw [h]
  exact congrArg Except.ok (String.ext (by decide))

/-- C6 amended: `scrapeUrl` fails with the scrape error exactly on a
network-level fetch failure; every received HTTP response — any status
code, non-2xx included — is processed successfully, and a page with no
extractable text yields the empty string rather than an error. -/
theorem c6_amended_scrape_behavior :
    scrapeUrl FetchResult.failure = Except.error "Failed to scrape URL" ∧
    (∀ status : Nat, scrapeUrl (FetchResult.success status "") = Except.ok "") ∧
    (∀ (status : Nat) (body : String),
      (scrapeUrl (FetchResult.success status body)).isOk = true) := by
  refine ⟨rfl, ?_, ?_⟩
  · intro s
    show Except.ok ⟨trimWs (collapseWs "".data)⟩ = Except.ok ""
    rw [show ("".data : List Char) = [] from rfl, collapseWs]
    exact congrArg Except.ok (String.ext (by decide))
  · intro s body
    rfl

/-- C3: when `url` or `description` is empty, `POST /api/urls` responds
400 with the validation message, leaves the module state and the store
untouched, and issues zero external calls (no scrape, no embedding, no
store operation). -/
theorem c3_validation_gate (scrape : String → Except Unit String)
    (embed : String → Except Unit (List Int)) (now : Nat) (nowIso : String)
    (st : ModuleState) (store : List PineconeRecord) (url description : String)
    (h : url = "" ∨ description = "") :
    postUrls scrape embed now nowIso st store url description =
      (UrlsPostResp.badRequest "URL and description are required", st, store, []) := by
  rw [postUrls, if_pos h]

/-- Witness for C3 at the two concrete inputs of the spec's scenario:
empty URL, and empty description. -/
theorem c3_witness :
    (("" : String) = "" ∨ ("desc" : String) = "") ∧
    postUrls (fun _ => Except.error ()) (fun _ => Except.error ()) 0 "t" ⟨[]⟩ []
        "" "desc" =
      (UrlsPostResp.badRequest "URL and description are required", ⟨[]⟩, [], []) ∧
    postUrls (fun _ => Except.error ()) (fun _ => Except.error ()) 0 "t" ⟨[]⟩ []
        "http://x" "" =
      (UrlsPostResp.badRequest "URL and description are required", ⟨[]⟩, [], []) :=
  ⟨Or.inl rfl,
   c3_validation_gate _ _ _ _ _ _ _ _ (Or.inl rfl),
   c3_validation_gate _ _ _ _ _ _ _ _ (Or.inr rfl)⟩

/-- C10: the module-level in-memory `urls` array never influences any
HTTP response or any store effect: for any two module states and the
same store, request, and oracle outcomes, `GET`, `POST` and `DELETE`
return the same response and leave the store (and call trace)
identical. -/
theorem c10_urls_array_never_read (s1 s2 : ModuleState) (store : List PineconeRecord)
    (scrape : String → Except Unit String) (embed : String → Except Unit (List Int))
    (now : Nat) (nowIso : String) (url description delId : String) :
    getHandler s1 store = getHandler s2 store ∧
    (postUrls scrape embed now nowIso s1 store url description).1 =
      (postUrls scrape embed now nowIso s2 store url description).1 ∧
    (postUrls scrape embed now nowIso s1 store url description).2.2 =
      (postUrls scrape embed now nowIso s2 store url description).2.2 ∧
    (deleteHandler s1 store delId).1 = (deleteHandler s2 store delId).1 ∧
    (deleteHandler s1 store delId).2.2 = (deleteHandler s2 store delId).2.2 := by
  have hp : (postUrls scrape embed now nowIso s1 store url description).1 =
      (postUrls scrape embed now nowIso s2 store url description).1 ∧
      (postUrls scrape embed now nowIso s1 store url description).2.2 =
      (postUrls scrape embed now nowIso s2 store url description).2.2 := by
    by_cases hval : url = "" ∨ description = ""
    · rw [postUrls, postUrls, if_pos hval, if_pos hval]
      exact ⟨rfl, rfl⟩
    · rcases hsc : scrape url with e | c
      · simp only [postUrls, if_neg hval, hsc]
        exact ⟨trivial, trivial⟩
      · rcases hemb : embed c with e2 | vec
        · simp only [postUrls, if_neg hval, hsc, hemb]
          exact ⟨trivial, trivial⟩
        · simp only [postUrls, if_neg hval, hsc, hemb]
          exact ⟨trivial, trivial⟩
  exact ⟨rfl, hp.1, hp.2, rfl, rfl⟩

/-- A concrete store holding the two chunk records of one ingested
document with base ID `"doc_1"` and no other records. -/
def c1meta (d ts : String) : VectorMetadata :=
  { VectorMetadata.empty with
      description := some d, filename := some "guide.txt", timestamp := some ts,
      type := some "document", content := some "chunk text" }

def c1store : List PineconeRecord :=
  [⟨"doc_1_chunk0", [1], some (c1meta "a doc" "t0")⟩,
   ⟨"doc_1_chunk1", [2], some (c1meta "a doc" "t1")⟩]

/-- C1 (code bug): the `DELETE` handler resolves a logical document ID
with `index.deleteOne(id)` only — it never lists the `"<id>_chunk"`
prefix — so deleting `"doc_1"` reports success while both physical
chunk records `doc_1_chunk0`, `doc_1_chunk1` remain in the store: two
records with the document's base-ID prefix remain instead of zero. -/
theorem c1_delete_misses_chunks :
    (deleteHandler ⟨[]⟩ c1store "doc_1").1 = UrlsDeleteResp.ok ∧
    (deleteHandler ⟨[]⟩ c1store "doc_1").2.2.1 = c1store ∧
    ((deleteHandler ⟨[]⟩ c1store "doc_1").2.2.1.filter
        (fun r => List.isPrefixOf "doc_1_chunk".data r.id.data)).length = 2 := by
  refine ⟨rfl, ?_, ?_⟩ <;> decide


/-! ## C2: grouping of one ingested document -/

/-- A fold over document-classified vectors whose group key is already
present leaves the map unchanged. -/
theorem foldl_doc_noop (b : String) (vs : List Vector) (acc : List (String × SavedItem))
    (hacc : acc.any (fun p => p.1 == b) = true)
    (hvs : ∀ v ∈ vs, ∃ m, v.metadata = some m ∧ mIsDoc m = true ∧ docKey v.id = b) :
    vs.foldl classifyStep acc = acc := by
  induction vs with
  | nil => rfl
  | cons v rest ih =>
    obtain ⟨m, hm, hd, hk⟩ := hvs v (List.mem_cons_self v rest)
    have hstep : classifyStep acc v = acc := by
      rw [classifyStep_some acc v m hm, if_pos hd, hk, if_pos hacc]
    rw [List.foldl_cons, hstep]
    exact ih (fun w hw => hvs w (List.mem_cons_of_mem _ hw))

/-- C2 amended: for a store holding exactly the N ≥ 1 chunk records of
one document ingestion (IDs `baseId ++ "_chunk" ++ …`, metadata typed
`"document"`), the listing synthesizes exactly one logical item — keyed
by the base ID, carrying the metadata of the first chunk encountered in
iteration order — but reports NO `chunkCount`: the synthesized object
has no such key (`chunkCount = none`), contrary to the claim's
`chunkCount = N`. -/
theorem c2_amended_one_item_per_doc (n : Nat) (r0 : PineconeRecord)
    (rest : List PineconeRecord)
    (hnd : (((r0 :: rest).map (fun r => r.id)).Nodup))
    (hids : ∀ r ∈ r0 :: rest, ∃ suf : List Char,
        r.id.data = (docBaseId n).data ++ uChunkCs ++ suf)
    (hmeta : ∀ r ∈ r0 :: rest, ∃ m, r.metadata = some m ∧ m.type = some "document") :
    ∃ m0, r0.metadata = some m0 ∧
      listItems (r0 :: rest) =
        [⟨docBaseId n, "document", none, m0.description, m0.filename, m0.timestamp, none⟩] := by
  obtain ⟨m0, hm0, ht0⟩ := hmeta r0 (List.mem_cons_self r0 rest)
  refine ⟨m0, hm0, ?_⟩
  have hkey : ∀ r ∈ r0 :: rest, docKey r.id = docBaseId n := by
    intro r hr
    obtain ⟨suf, hsuf⟩ := hids r hr
    apply String.ext
    show splitHeadCs uChunkCs r.id.data = (docBaseId n).data
    rw [hsuf]
    exact splitHeadCs_junction ['h', 'u', 'n', 'k'] suf (hasUC_docBaseId n)
  have hdoc : ∀ r ∈ r0 :: rest, ∀ m, r.metadata = some m → mIsDoc m = true := by
    intro r hr m hm
    obtain ⟨m2, hm2, ht2⟩ := hmeta r hr
    rw [hm] at hm2
    have hmm : m = m2 := Option.some.inj hm2
    subst hmm
    rw [mIsDoc, ht2]
    decide
  rw [listItems, getVectors_eq _ hnd]
  have hfil : (r0 :: rest).filter (fun r => r.metadata.isSome) = r0 :: rest :=
    List.filter_eq_self.mpr (fun r hr => by
      obtain ⟨m, hm, -⟩ := hmeta r hr
      simp [hm])
  rw [hfil]
  rw [groupItems]
  simp only [List.map_cons, List.foldl_cons]
  have hd0 : mIsDoc m0 = true := hdoc r0 (List.mem_cons_self r0 rest) m0 hm0
  have hstep0 : classifyStep [] (⟨r0.id, r0.metadata⟩ : Vector) =
      [(docBaseId n,
        ⟨docBaseId n, "document", none, m0.description, m0.filename, m0.timestamp, none⟩)] := by
    rw [classifyStep_some [] ⟨r0.id, r0.metadata⟩ m0 hm0, if_pos hd0]
    rw [show docKey (⟨r0.id, r0.metadata⟩ : Vector).id = docBaseId n from
      hkey r0 (List.mem_cons_self r0 rest)]
    rfl
  rw [hstep0]
  rw [foldl_doc_noop (docBaseId n) _ _ (by simp) ?hrest]
  · rfl
  case hrest =>
    intro v hv
    obtain ⟨r, hr, hrv⟩ := List.mem_map.mp hv
    obtain ⟨m, hm, -⟩ := hmeta r (List.mem_cons_of_mem _ hr)
    refine ⟨m, ?_, ?_, ?_⟩
    · rw [← hrv]
      exact hm
    · exact hdoc r (List.mem_cons_of_mem _ hr) m hm
    · rw [← hrv]
      exact hkey r (List.mem_cons_of_mem _ hr)

/-- The two chunk records of one ingested document, with distinct
chunk-level metadata so the result exposes which chunk wins. -/
def c2meta0 : VectorMetadata :=
  { VectorMetadata.empty with
      type := some "document", description := some "first",
      filename := some "f.txt", timestamp := some "t0", content := some "x" }

def c2meta1 : VectorMetadata :=
  { VectorMetadata.empty with
      type := some "document", description := some "second",
      filename := some "f.txt", timestamp := some "t1", content := some "y" }

def c2r0 : PineconeRecord := ⟨"doc_1_chunk0", [1], some c2meta0⟩

def c2rest : List PineconeRecord := [⟨"doc_1_chunk1", [2], some c2meta1⟩]

/-- C2 counterexample: a store holding exactly the N = 2 chunk records
of one document produces exactly one logical item in the listing — but
that item has NO `chunkCount` key (`none`, JavaScript `undefined`),
not `chunkCount = 2` as the claim states: the grouping code never
counts the group. -/
theorem c2_counterexample :
    (listItems (c2r0 :: c2rest)).length = 1 ∧
    (listItems (c2r0 :: c2rest)).map (fun it => it.chunkCount) = [none] := by
  have h : listItems (c2r0 :: c2rest) =
      [⟨"doc_1", "document", none, some "first", some "f.txt", some "t0", none⟩] := by
    rw [listItems, groupItems, getVectors, collectIdsFrom]
    simp only [listPage, c2r0, c2rest, c2meta0, c2meta1]
    norm_num [fetchIds]
    decide
  rw [h]
  decide

/-- Witness for C2's amended claim on the same concrete two-chunk
store. -/
theorem c2_amended_witness :
    listItems (c2r0 :: c2rest) =
      [⟨docBaseId 1, "document", none, some "first", some "f.txt", some "t0", none⟩] := by
  have hb : (docBaseId 1).data = "doc_1".data := by
    rw [docBaseId_data, decDigits]
    norm_num
    decide
  obtain ⟨m0, hm0, hlist⟩ := c2_amended_one_item_per_doc 1 c2r0 c2rest
    (by decide)
    (by
      intro r hr
      rcases List.mem_cons.mp hr with hr | hr
      · subst hr
        exact ⟨['0'], by rw [hb]; decide⟩
      · simp only [c2rest, List.mem_singleton] at hr
        subst hr
        exact ⟨['1'], by rw [hb]; decide⟩)
    (by
      intro r hr
      rcases List.mem_cons.mp hr with hr | hr
      · subst hr
        exact ⟨c2meta0, rfl, rfl⟩
      · simp only [c2rest, List.mem_singleton] at hr
        subst hr
        exact ⟨c2meta1, rfl, rfl⟩)
  have hmm : m0 = c2meta0 := Option.some.inj hm0.symm
  subst hmm
  rw [hlist]
  rfl


/-! ## C8: classification predicates of the listing -/

/-- C8 amended: the listing classifies a fetched record as a
document-chunk record iff its metadata is present and its `type`
lowercases to `"document"` (then an item whose ID is the record ID's
part before the first `"_chunk"` appears in the result); it classifies
it as a URL record iff it is not document-classified and its metadata's
`isUrl` is truthy (then an item with the record's ID appears); a record
satisfying neither — in particular one with `url` present but no
`type` and no `isUrl` — is skipped and contributes nothing. -/
theorem c8_amended_classification (store : List PineconeRecord) (v : Vector)
    (hv : v ∈ getVectors store) :
    (∀ m, v.metadata = some m → mIsDoc m = true →
        ∃ it ∈ listItems store, it.id = docKey v.id) ∧
    (∀ m, v.metadata = some m → mIsDoc m = false → mIsUrl m = true →
        ∃ it ∈ listItems store, it.id = v.id) ∧
    (v.metadata = none → ∀ acc, classifyStep acc v = acc) ∧
    (∀ m, v.metadata = some m → mIsDoc m = false → mIsUrl m = false →
        ∀ acc, classifyStep acc v = acc) := by
  refine ⟨?_, ?_, ?_, ?_⟩
  · intro m hm hd
    exact item_of_key _ _ ((key_of_mem_fold (getVectors store) v [] hv m hm).1 hd)
  · intro m hm hd hu
    exact item_of_key _ _ ((key_of_mem_fold (getVectors store) v [] hv m hm).2 hd hu)
  · intro hm acc
    exact classifyStep_none acc v hm
  · intro m hm hd hu acc
    exact classifyStep_skip acc v (Or.inr ⟨m, hm, hd, hu⟩)

def c8mdoc : VectorMetadata :=
  { VectorMetadata.empty with
      type := some "document", description := some "d",
      filename := some "f.txt", timestamp := some "t" }

def c8murl : VectorMetadata :=
  { VectorMetadata.empty with
      url := some "http://x", description := some "u",
      timestamp := some "t2", isUrl := some true }

def c8store : List PineconeRecord :=
  [⟨"doc_1_chunk0", [1], some c8mdoc⟩, ⟨"u1", [2], some c8murl⟩]

/-- Witness for C8's amended claim: in a store with one document chunk
and one `isUrl` record, the listing contains an item for the chunk's
group key and an item for the URL record's ID. -/
theorem c8_amended_witness :
    (∃ it ∈ listItems c8store, it.id = docKey "doc_1_chunk0") ∧
    (∃ it ∈ listItems c8store, it.id = "u1") := by
  have hget : getVectors c8store =
      [⟨"doc_1_chunk0", some c8mdoc⟩, ⟨"u1", some c8murl⟩] := by
    rw [getVectors, collectIdsFrom]
    simp only [listPage, c8store]
    norm_num [fetchIds]
    decide
  constructor
  · exact (c8_amended_classification c8store ⟨"doc_1_chunk0", some c8mdoc⟩
      (by rw [hget]; simp)).1 c8mdoc rfl (by decide)
  · exact (c8_amended_classification c8store ⟨"u1", some c8murl⟩
      (by rw [hget]; simp)).2.1 c8murl rfl (by decide) (by decide)

/-- A record with `url` present in its metadata but neither a `type`
nor an `isUrl` flag. -/
def c8cmeta : VectorMetadata :=
  { VectorMetadata.empty with
      url := some "http://y", description := some "d", timestamp := some "t" }

def c8cstore : List PineconeRecord := [⟨"u2", [1], some c8cmeta⟩]

/-- C8 counterexample: the claim says a record whose metadata has `url`
present without `type` is classified as a UrlItem; the code classifies
by `isUrl` truthiness only, so such a record is skipped and the listing
of a store containing only it is empty. -/
theorem c8_counterexample : listItems c8cstore = [] := by
  rw [listItems, groupItems, getVectors, collectIdsFrom]
  simp only [listPage, c8cstore, c8cmeta]
  norm_num [fetchIds]
  decide


/-! ## C4: document intake guards -/

/-- C4: document ingestion rejects a declared MIME type other than
`text/plain` with the 400 "Unsupported file type" response, rejects a
byte length exceeding `MAX_FILE_SIZE = 10 * 1024 * 1024` with the 400
"File too large" response — in both cases before any chunking,
embedding or store upsert (the store is unchanged and the external-call
trace is empty) — and a conforming file is processed by decoding its
byte buffer (the external `TextDecoder`, whose default encoding is
UTF-8) and splitting exactly that decoded text. -/
theorem c4_document_intake_guards (decode : List Nat → String)
    (splitter : String → List String) (embed : String → Except Unit (List Int))
    (now : Nat) (nowIso : String) (store : List PineconeRecord) (f : FileData)
    (description : String) :
    (SUPPORTED_TYPES.contains f.type = (f.type == "text/plain")) ∧
    (f.type ≠ "text/plain" →
      postDocuments decode splitter embed now nowIso store (some f) description =
        (DocsPostResp.badRequest "Unsupported file type", store, [])) ∧
    (f.type = "text/plain" → f.size > MAX_FILE_SIZE →
      postDocuments decode splitter embed now nowIso store (some f) description =
        (DocsPostResp.badRequest "File too large (max 10MB)", store, [])) ∧
    (f.type = "text/plain" → f.size ≤ MAX_FILE_SIZE →
      processDocument decode splitter nowIso f =
        Except.ok ((splitter (decode f.bytes)).map
          (fun c => ⟨c, f.name, f.type, nowIso⟩))) := by
  have hcon : SUPPORTED_TYPES.contains f.type = (f.type == "text/plain") := by
    simp [SUPPORTED_TYPES, List.contains, List.elem]
    cases h : f.type == "text/plain" with
    | false =>
      have : ¬ (f.type = "text/plain") := by simpa using h
      simp [this]
    | true =>
      have : f.type = "text/plain" := by simpa using h
      simp [this]
  refine ⟨hcon, ?_, ?_, ?_⟩
  · intro hty
    have hfalse : SUPPORTED_TYPES.contains f.type = false := by
      rw [hcon]
      simpa using hty
    simp only [postDocuments]
    rw [if_pos (by rw [hfalse]; simp)]
  · intro hty hsize
    have htrue : SUPPORTED_TYPES.contains f.type = true := by
      rw [hcon, hty]
      rfl
    simp only [postDocuments]
    rw [if_neg (by rw [htrue]; simp), if_pos hsize]
  · intro hty hsize
    have htrue : SUPPORTED_TYPES.contains f.type = true := by
      rw [hcon, hty]
      rfl
    rw [processDocument, if_neg (by rw [htrue]; simp), if_neg (by omega)]

def c4decode : List Nat → String := fun _ => "hi"

def c4split : String → List String := fun t => [t]

def c4embed : String → Except Unit (List Int) := fun _ => Except.ok [1]

def c4fileBad : FileData := ⟨"a.pdf", "application/pdf", 3, [0]⟩

def c4fileBig : FileData := ⟨"big.txt", "text/plain", 10485761, []⟩

def c4fileOk : FileData := ⟨"a.txt", "text/plain", 5, [104, 105]⟩

/-- Witness for C4 at three concrete files: wrong MIME type, oversized,
and conforming. -/
theorem c4_witness :
    postDocuments c4decode c4split c4embed 0 "t" [] (some c4fileBad) "d" =
      (DocsPostResp.badRequest "Unsupported file type", [], []) ∧
    postDocuments c4decode c4split c4embed 0 "t" [] (some c4fileBig) "d" =
      (DocsPostResp.badRequest "File too large (max 10MB)", [], []) ∧
    processDocument c4decode c4split "t" c4fileOk =
      Except.ok [⟨"hi", "a.txt", "text/plain", "t"⟩] :=
  ⟨(c4_document_intake_guards c4decode c4split c4embed 0 "t" [] c4fileBad "d").2.1
      (by decide),
   (c4_document_intake_guards c4decode c4split c4embed 0 "t" [] c4fileBig "d").2.2.1
      rfl (by decide),
   (c4_document_intake_guards c4decode c4split c4embed 0 "t" [] c4fileOk "d").2.2.2
      rfl (by decide)⟩

/-! ## C5: chunk records of a successful ingestion -/

/-- Index computation of the chunk-record builder. -/
theorem mkChunkRecords_getElem (b d : String) (e : String → List Int)
    (cs : List DocChunk) : ∀ (i j : Nat),
    (mkChunkRecords b d e cs i)[j]? = (cs[j]?).map (fun c =>
      ⟨chunkRecId b (i + j), e c.content,
       some { VectorMetadata.empty with
                filename := some c.filename, fileType := some c.fileType,
                timestamp := some c.timestamp, description := some d,
                type := some "document", content := some c.content }⟩) := by
  induction cs with
  | nil =>
    intro i j
    simp [mkChunkRecords]
  | cons c rest ih =>
    intro i j
    cases j with
    | zero => simp [mkChunkRecords]
    | succ j2 =>
      simp only [mkChunkRecords, List.getElem?_cons_succ]
      rw [ih (i + 1) j2]
      have : i + 1 + j2 = i + (j2 + 1) := by omega
      rw [this]

/-- C5: a successful document ingestion (conforming file, all
embeddings succeeding) answers with the base ID, filename, description
and `chunks = N` where `N` is the number of chunks the splitter
produced, upserts exactly the per-chunk records (after the splitter and
one embed call per chunk), and the record of chunk `j` has ID
`baseId ++ "_chunk" ++ j` and metadata carrying the filename, the
caller's description, the chunk text as `content`, the timestamp, and
`type = "document"`. -/
theorem c5_chunks_upserted (decode : List Nat → String)
    (splitter : String → List String) (embed : String → Except Unit (List Int))
    (embedV : String → List Int) (now : Nat) (nowIso : String)
    (store : List PineconeRecord) (f : FileData) (description : String)
    (htype : f.type = "text/plain") (hsize : f.size ≤ MAX_FILE_SIZE)
    (hembed : ∀ s, embed s = Except.ok (embedV s)) :
    postDocuments decode splitter embed now nowIso store (some f) description =
      (DocsPostResp.ok (docBaseId now) f.name description
         (splitter (decode f.bytes)).length,
       upsertMany store (mkChunkRecords (docBaseId now) description embedV
         ((splitter (decode f.bytes)).map (fun c => ⟨c, f.name, f.type, nowIso⟩)) 0),
       ExtCall.splitC (decode f.bytes) ::
         ((splitter (decode f.bytes)).map (fun c => ExtCall.embedC c) ++
          (mkChunkRecords (docBaseId now) description embedV
            ((splitter (decode f.bytes)).map (fun c => ⟨c, f.name, f.type, nowIso⟩)) 0).map
            (fun r => ExtCall.upsertC [r]))) ∧
    (∀ (j : Nat) (c : String), (splitter (decode f.bytes))[j]? = some c →
      (mkChunkRecords (docBaseId now) description embedV
         ((splitter (decode f.bytes)).map (fun ch => ⟨ch, f.name, f.type, nowIso⟩)) 0)[j]? =
        some ⟨chunkRecId (docBaseId now) j, embedV c,
          some { VectorMetadata.empty with
                   filename := some f.name, fileType := some f.type,
                   timestamp := some nowIso, description := some description,
                   type := some "document", content := some c }⟩) := by
  have htrue : SUPPORTED_TYPES.contains f.type = true := by
    rw [htype]
    rfl
  have hproc : processDocument decode splitter nowIso f =
      Except.ok ((splitter (decode f.bytes)).map
        (fun c => ⟨c, f.name, f.type, nowIso⟩)) := by
    rw [processDocument, if_neg (by rw [htrue]; simp), if_neg (by omega)]
  have hfn : (fun s => ((embed s).toOption.getD ([] : List Int))) = embedV := by
    funext s
    rw [hembed s]
    rfl
  have hall : ((splitter (decode f.bytes)).map
      (fun c => (⟨c, f.name, f.type, nowIso⟩ : DocChunk))).all
        (fun c => (embed c.content).isOk) = true := by
    simp only [List.all_eq_true]
    intro c _
    rw [hembed]
    rfl
  constructor
  · simp only [postDocuments, hproc, if_neg (show ¬ (¬ SUPPORTED_TYPES.contains f.type = true) by rw [htrue]; simp),
      if_neg (show ¬ (f.size > MAX_FILE_SIZE) by omega), hall, if_pos, hfn]
    simp [List.map_map, Function.comp, List.length_map]
  · intro j c hc
    rw [mkChunkRecords_getElem]
    simp only [List.getElem?_map, hc, Option.map_some]
    simp


def c5decode : List Nat → String := fun _ => "abcdef"

def c5split : String → List String := fun _ => ["abc", "def"]

def c5embedV : String → List Int := fun _ => [7]

def c5embed : String → Except Unit (List Int) := fun s => Except.ok (c5embedV s)

def c5file : FileData := ⟨"w.txt", "text/plain", 6, [9]⟩

/-- Witness for C5: a conforming file split into two chunks yields the
success response with `chunks = 2`, the two per-chunk upserts, and the
expected record at index 1. -/
theorem c5_witness :
    postDocuments c5decode c5split c5embed 5 "t" [] (some c5file) "dd" =
      (DocsPostResp.ok (docBaseId 5) "w.txt" "dd" 2,
       upsertMany [] (mkChunkRecords (docBaseId 5) "dd" c5embedV
         (["abc", "def"].map (fun c => ⟨c, "w.txt", "text/plain", "t"⟩)) 0),
       ExtCall.splitC "abcdef" ::
         (["abc", "def"].map (fun c => ExtCall.embedC c) ++
          (mkChunkRecords (docBaseId 5) "dd" c5embedV
            (["abc", "def"].map (fun c => ⟨c, "w.txt", "text/plain", "t"⟩)) 0).map
            (fun r => ExtCall.upsertC [r]))) ∧
    (mkChunkRecords (docBaseId 5) "dd" c5embedV
       (["abc", "def"].map (fun ch => ⟨ch, "w.txt", "text/plain", "t"⟩)) 0)[1]? =
      some ⟨chunkRecId (docBaseId 5) 1, [7],
        some { VectorMetadata.empty with
                 filename := some "w.txt", fileType := some "text/plain",
                 timestamp := some "t", description := some "dd",
                 type := some "document", content := some "def" }⟩ := by
  have h := c5_chunks_upserted c5decode c5split c5embed c5embedV 5 "t" [] c5file "dd"
    rfl (by decide) (fun s => rfl)
  exact ⟨h.1, h.2 1 "def" rfl⟩

end EcomBot